import Mathlib

/-!
Verification of the grid-simulation core of the `bit-player/trees` demos.

The repository holds three small JavaScript simulations of forest ecology on a
square grid of "trees":

* `immigration.js` (first program): neutral ecological drift with immigration —
  ten species, a departing tree is picked uniformly at random, the arriving
  species is either copied from a random living tree or (on steps whose
  pre-increment clock value is divisible by the immigration interval) drawn
  uniformly from the full species list.
* `immigration.js` (second program in the same file): two-species resource
  competition (olive vs. orange) with rejection sampling biased by per-species
  pressure factors.
* `socialdx.js`: neighborhood exclusion ("social distancing") on a toroidal
  grid — the arriving species may not appear anywhere in the departing cell's
  3×3 neighborhood; when no candidate exists the cell becomes vacant.

Species are embedded as natural-number indices into the program's `treeNames`
array.  A cell's species in the neighbor-exclusion model is an `Option Nat`
(`none` models the JavaScript `null` used for a vacant site).  The JavaScript
census objects are embedded as functions: `Nat → Int` for the two variants that
never touch a missing key, and `Option Nat → Option Int` for the
neighbor-exclusion variant, where the value `none` models a key that is absent
or has become `NaN` (JavaScript `undefined - 1 = NaN`, `NaN - 1 = NaN`).
Random draws are passed in as explicit arguments: every `randomElement` /
`Math.random()` call of the source corresponds to one explicit input.
-/

namespace Trees

/-- Counts occurrences of `b` in a list (explicit recursion so that proofs by
induction are direct; agrees with `List.count`). -/
def countSp {α : Type} [DecidableEq α] : List α → α → Nat
  | [], _ => 0
  | x :: t, b => (if x = b then 1 else 0) + countSp t b

/-! ### Sum of per-species counts

`speciesTotal k c` is the sum of the census values of the `k` real species
(the keys the constructor pre-populates). -/

/-- Sum of the census values over the `k` species keys. -/
def speciesTotal (k : Nat) (c : Nat → Int) : Int :=
  ∑ i ∈ Finset.range k, c i

/-! ## The drift-with-immigration model (`immigration.js`, first program)

The forest is a linear vector of `s²` trees; only the `species` field matters
to the simulation, so a tree is embedded as its species index.  The census is
a function `Nat → Int` (every key this variant ever touches is one of the `k`
pre-populated species keys).  `stepCount` models the module-level step counter.
-/

/-- Simulation state shared by the drift-with-immigration program and the
two-species competition program: the species vector, the census object and
the module-level `stepCount` global. -/
structure DriftState where
  trees : List Nat
  census : Nat → Int
  stepCount : Nat

/-- `theCensus[sp] -= 1` on a pre-populated key. -/
def censusDec (c : Nat → Int) (sp : Nat) : Nat → Int :=
  fun j => if j = sp then c sp - 1 else c j

/-- `theCensus[sp] += 1` on a pre-populated key. -/
def censusInc (c : Nat → Int) (sp : Nat) : Nat → Int :=
  fun j => if j = sp then c sp + 1 else c j

/-- The species assignments drawn during `createForest`: the loop body runs
for each `idx < s²`, consuming one uniform draw from `treeNames`; the draws
are supplied as the list `choices`. -/
def speciesDraws (s : Nat) (choices : List Nat) : List Nat :=
  (List.range (s * s)).map (fun i => choices.getD i 0)

/-- `createForest(treesPerRow)` with `k` species: builds the `s²`-element tree
vector and the census initialised to zero for every species then incremented
once per planted tree.  Identical code appears in both programs of
`immigration.js`. -/
def createForest (s k : Nat) (choices : List Nat) : DriftState :=
  let draws := speciesDraws s choices
  { trees := draws
    census := draws.foldl (fun c sp => censusInc c sp) (fun _ => 0)
    stepCount := 0 }

/-- One random-draw bundle for a drift-with-immigration replacement step:
`d` is the index drawn by `randomElement(theForest)` for the departing tree,
`aSpec` the index drawn by `randomElement(treeNames)` (used only on
immigration steps), `aIdx` the index drawn by the second
`randomElement(theForest)` (used otherwise). -/
structure ImmRand where
  d : Nat
  aSpec : Nat
  aIdx : Nat

/-- `replaceTree()` of the immigration program.  The arriving species is drawn
from the full species list exactly when `stepCount % immigrationInterval === 0`
(evaluated before the final `stepCount += 1`); otherwise it is the current
species of the tree at the second random index.  The census is decremented at
the departing species and incremented at the arriving species, the departing
tree is relabeled, and the clock advances by one. -/
def replaceTreeImm (interval : Nat) (st : DriftState) (r : ImmRand) : DriftState :=
  let departingSpecies := st.trees.getD r.d 0
  let arrivingSpecies :=
    if st.stepCount % interval = 0 then r.aSpec else st.trees.getD r.aIdx 0
  { trees := st.trees.set r.d arrivingSpecies
    census := censusInc (censusDec st.census departingSpecies) arrivingSpecies
    stepCount := st.stepCount + 1 }

/-- A batch (or any sequence) of immigration-variant replacement steps. -/
def runImm (interval : Nat) (st : DriftState) (rs : List ImmRand) : DriftState :=
  rs.foldl (replaceTreeImm interval) st

/-- Validity of one immigration-step random bundle: `randomElement` always
returns an element of its (non-empty) array, so the drawn indices are in
range and the drawn species is in the species list. -/
def ImmValid (N k : Nat) (r : ImmRand) : Prop :=
  r.d < N ∧ r.aSpec < k ∧ r.aIdx < N

/-- Well-formedness of a drift/competition state with `N` cells and `k`
species: the tree vector has length `N`, every cell's species is in the
species set, and the census totals `N` over the species keys. -/
def WFDrift (N k : Nat) (st : DriftState) : Prop :=
  st.trees.length = N ∧ (∀ x ∈ st.trees, x < k) ∧ speciesTotal k st.census = (N : Int)

/-! ## The two-species competition model (`immigration.js`, second program)

Species indices follow the order of the program's `treeColorMap`:
`0 = olive`, `1 = orange`.  JavaScript numbers are embedded as rationals
(all quantities involved — populations, resource levels, `Math.random()`
draws — are treated as exact). -/

/-- `let poachingCoef = 0.25` — the fraction of the competitor's resource a
species can use.  Never reassigned by the program. -/
def poachingCoef : ℚ := 1 / 4

/-- Per-step inputs of a competition replacement step: the resource globals
`iron` and `calcium` as they stand when the step runs, the departing-tree
draw `d`, the stream `cand` of candidate-tree draws and the stream `coins`
of `Math.random()` draws consumed by `flipBiasedCoin`, plus a fuel bound on
the rejection loop (the JavaScript loop is unbounded; `none` below models a
run of the loop that has not accepted within `fuel` draws). -/
structure CompRand where
  iron : ℚ
  calcium : ℚ
  d : Nat
  cand : Nat → Nat
  coins : Nat → ℚ
  fuel : Nat

/-- The `do … while (!flipBiasedCoin(bias))` rejection loop: draw candidate
`n`, set `bias` to the olive factor if its species is olive and to the orange
factor otherwise, accept when the fresh uniform draw is below `bias`,
otherwise retry with the next draws. -/
def rejectionLoop (trees : List Nat) (oliveF orangeF : ℚ) (cand : Nat → Nat)
    (coins : Nat → ℚ) : Nat → Nat → Option Nat
  | 0, _ => none
  | fuel + 1, n =>
    let sp := trees.getD (cand n) 0
    let bias := if sp = 0 then oliveF else orangeF
    if coins n < bias then some sp
    else rejectionLoop trees oliveF orangeF cand coins fuel (n + 1)

/-- `replaceTree()` of the competition program: compute the two pressure
factors from the census as it stands before the step, pick the departing
tree, run the rejection loop, then update census, species and clock exactly
once. -/
def replaceTreeComp (st : DriftState) (r : CompRand) : Option DriftState :=
  let olivePop := st.census 0
  let orangePop := st.census 1
  let oliveFactor := r.iron / ((olivePop : ℚ) + poachingCoef * (orangePop : ℚ))
  let orangeFactor := r.calcium / ((orangePop : ℚ) + poachingCoef * (olivePop : ℚ))
  let departingSpecies := st.trees.getD r.d 0
  (rejectionLoop st.trees oliveFactor orangeFactor r.cand r.coins r.fuel 0).map
    (fun arrivingSpecies =>
      { trees := st.trees.set r.d arrivingSpecies
        census := censusInc (censusDec st.census departingSpecies) arrivingSpecies
        stepCount := st.stepCount + 1 })

/-- A sequence of competition replacement steps; `none` as soon as one
rejection loop exhausts its fuel. -/
def runComp (st : DriftState) : List CompRand → Option DriftState
  | [] => some st
  | r :: t =>
    match replaceTreeComp st r with
    | none => none
    | some st' => runComp st' t

/-- The pressure-factor formula of the specification: resource capacity
divided by (own live count + poaching coefficient × the other species' live
count). -/
def pressureFactor (capacity own other coef : ℚ) : ℚ :=
  capacity / (own + coef * other)

/-! ## The neighbor-exclusion model (`socialdx.js`)

A cell's species is an `Option Nat` — `none` models the JavaScript `null`
of a vacant site.  The census object maps species keys to `Option Int`,
where `none` models a key whose value is not a number (absent/`undefined`,
or `NaN` after arithmetic on `undefined`); the JavaScript key `"null"`
produced by `theCensus[null]` is embedded as the key `none`. -/

/-- `modAdd(a, b, m)` of `socialdx.js`: toroidal index arithmetic, assuming
`a + b` lies within `[-m, 2m)`. -/
def modAdd (a b m : Int) : Int :=
  let s := a + b
  if s < 0 then s + m
  else if s ≥ m then s - m
  else s

/-- The linear index of the toroidal neighbour of cell `d` at column offset
`h` and row offset `v` (grid side `s`); `colRowToIndex(c, r, s) = c + r*s`
with `col = d % s`, `row = d / s` as assigned by the `Forest` constructor. -/
def nbrIdx (s d : Nat) (h v : Int) : Nat :=
  (modAdd ((d % s : Nat) : Int) h (s : Int)
    + modAdd ((d / s : Nat) : Int) v (s : Int) * (s : Int)).toNat

/-- The nine neighbourhood indices of cell `d` in the order
`Tree.prototype.listNeighbors` pushes them (column offset outer, row offset
inner); entry 4 is the cell itself. -/
def neighborIndices (s d : Nat) : List Nat :=
  [nbrIdx s d (-1) (-1), nbrIdx s d (-1) 0, nbrIdx s d (-1) 1,
   nbrIdx s d 0 (-1), nbrIdx s d 0 0, nbrIdx s d 0 1,
   nbrIdx s d 1 (-1), nbrIdx s d 1 0, nbrIdx s d 1 1]

/-- The eight proper neighbours (the neighbourhood list without its centre
entry, as in `countConflicts`, which drops index 4 of the list). -/
def ringIndices (s d : Nat) : List Nat :=
  [nbrIdx s d (-1) (-1), nbrIdx s d (-1) 0, nbrIdx s d (-1) 1,
   nbrIdx s d 0 (-1), nbrIdx s d 0 1,
   nbrIdx s d 1 (-1), nbrIdx s d 1 0, nbrIdx s d 1 1]

/-- `Tree.prototype.listNeighborSpecies`: the species present in the 9-cell
neighbourhood of cell `d`, read from the current grid (vacant cells are
skipped by the `if (t.species)` test).  Membership in this list embeds key
presence in the JavaScript `neighborSpecies` object. -/
def listNeighborSpecies (trees : List (Option Nat)) (s d : Nat) : List Nat :=
  (neighborIndices s d).filterMap (fun j => trees.getD j none)

/-- The cell index `modAdd(idx, i, this.N)` examined at loop offset `i` of
the candidate scan. -/
def scanPos (idx N i : Nat) : Nat :=
  (modAdd (idx : Int) (i : Int) (N : Int)).toNat

/-- The candidate scan of `Forest.prototype.replaceTree`: starting at offset
`i` with `rem` loop iterations left, examine the cell at `scanPos idx N i`;
return its species if that species is non-vacant and not excluded, else step
on. -/
def scanFrom (trees : List (Option Nat)) (N : Nat) (excluded : List Nat)
    (idx : Nat) : Nat → Nat → Option Nat
  | 0, _ => none
  | rem + 1, i =>
    match trees.getD (scanPos idx N i) none with
    | none => scanFrom trees N excluded idx rem (i + 1)
    | some sp =>
      if sp ∈ excluded then scanFrom trees N excluded idx rem (i + 1)
      else some sp

/-- The full scan: `N` iterations of the `for (let i=0; i<this.N; i++)` loop
starting from the random offset `idx`. -/
def scanForReplacement (trees : List (Option Nat)) (N : Nat)
    (excluded : List Nat) (idx : Nat) : Option Nat :=
  scanFrom trees N excluded idx N 0

/-- `theCensus[key] -= 1` on a JavaScript object: a present numeric value is
decremented; an absent or non-numeric value becomes `NaN` (embedded `none`). -/
def objDec (c : Option Nat → Option Int) (key : Option Nat) :
    Option Nat → Option Int :=
  fun j => if j = key then (c key).map (fun v => v - 1) else c j

/-- `theCensus[key] += 1`, same conventions as `objDec`. -/
def objInc (c : Option Nat → Option Int) (key : Option Nat) :
    Option Nat → Option Int :=
  fun j => if j = key then (c key).map (fun v => v + 1) else c j

/-- State of the `socialdx.js` model: grid side `s`, cell count `N` (the
constructor sets `N = s²`), the species count (`treeNames.length`), the tree
vector, the census object and the module-level `stepCount` global. -/
structure Forest where
  s : Nat
  N : Nat
  numSpecies : Nat
  trees : List (Option Nat)
  census : Option Nat → Option Int
  stepCount : Nat

/-- The census as initialised by the `Forest` constructor before planting:
every species key is present with value `0`; every other key is absent. -/
def initCensus (k : Nat) : Option Nat → Option Int :=
  fun key =>
    match key with
    | some i => if i < k then some 0 else none
    | none => none

/-- The `Forest` constructor with side `gridSize` and `k` species: plant `s²`
trees with the supplied random species draws, incrementing the census for
each planted tree.  (The cached `neighborTrees` lists are references into the
tree vector fixed at construction; they are embedded by computing
`neighborIndices` from the grid geometry, which never changes.) -/
def Forest.create (gridSize k : Nat) (choices : List Nat) : Forest :=
  let draws := speciesDraws gridSize choices
  { s := gridSize,
    N := gridSize * gridSize,
    numSpecies := k,
    trees := draws.map some,
    census := draws.foldl (fun c sp => objInc c (some sp)) (initCensus k),
    stepCount := 0 }

/-- One random-draw bundle for a `socialdx` replacement step: `d` is the
departing-tree index drawn by `randomElement(this.trees)` and `idx` the scan
start drawn by `Math.floor(Math.random() * this.N)`. -/
structure SdxRand where
  d : Nat
  idx : Nat

/-- `Forest.prototype.replaceTree`: choose the departing tree, list the
species of its 9-cell neighbourhood (pre-departure), scan circularly from a
random start for the first non-vacant species not in that list, then
decrement the census at the departing species key, relabel the cell with the
replacement (or `null` when none was found), increment the census only when
a replacement exists, and advance the clock. -/
def Forest.replaceTree (f : Forest) (r : SdxRand) : Forest :=
  let departingSpecies := f.trees.getD r.d none
  let excluded := listNeighborSpecies f.trees f.s r.d
  let replacementSpecies := scanForReplacement f.trees f.N excluded r.idx
  let census1 := objDec f.census departingSpecies
  let census2 :=
    match replacementSpecies with
    | some sp => objInc census1 (some sp)
    | none => census1
  { f with
    trees := f.trees.set r.d replacementSpecies,
    census := census2,
    stepCount := f.stepCount + 1 }

/-- A sequence of neighbor-exclusion replacement steps. -/
def runSdx (f : Forest) (rs : List SdxRand) : Forest :=
  rs.foldl Forest.replaceTree f

/-! ### Census and counting invariants of the neighbor-exclusion model -/

/-- Well-formedness of a `Forest`: the constructor's `N = s²`, the tree
vector has `N` cells, every non-vacant cell's species is in the species set,
and every species key of the census holds exactly the number of cells
currently carrying that species. -/
def WFForest (f : Forest) : Prop :=
  f.N = f.s * f.s ∧ f.trees.length = f.N ∧
  (∀ x ∈ f.trees, ∀ j, x = some j → j < f.numSpecies) ∧
  (∀ i, i < f.numSpecies → f.census (some i) = some ((countSp f.trees (some i) : Int)))

/-! ## The run/pause/reset state machine

`state` is a module-level string in both programs; its four values are
embedded as an enumeration.  `doStartStop` is the button handler of the
competition program (`immigration.js`, second program): it also serves as
the transition function invoked at batch end. -/

/-- The values of the `state` global. -/
inductive RunState where
  | idle
  | running
  | paused
  | done
deriving DecidableEq

/-- `doStartStop()` of the competition program: idle and paused resume the
timer (`running`), running pauses, and done cancels the timer and disables
the button, staying terminal. -/
def doStartStop : RunState → RunState
  | RunState.idle => RunState.running
  | RunState.running => RunState.paused
  | RunState.paused => RunState.running
  | RunState.done => RunState.done

/-- `finished()` of the competition program. -/
def finishedComp (st : DriftState) : Bool :=
  (st.stepCount % 500000 == 0) || (st.census 0 == 0) || (st.census 1 == 0)

/-- The end-of-batch control step of the competition program's `runBatch`,
entered with `state === 'running'`: when `finished()` holds, the state is
first overwritten with `'running'` if the step ceiling was reached and
`'done'` otherwise, and then `doStartStop()` runs on that state. -/
def runBatchControl (st : DriftState) : RunState :=
  if finishedComp st then
    doStartStop (if st.stepCount % 500000 = 0 then RunState.running else RunState.done)
  else RunState.running

/-- The state after the immigration program's `doReset()` (which zeroes the
`stepCount` global) followed by the `init()` it calls (which rebuilds the
25×25, 10-species forest); initial page load produces the same state. -/
def doResetImm (choices : List Nat) : DriftState :=
  createForest 25 10 choices

/-! ### Concrete fixtures used by the witness theorems -/

/-- A 2×2 drift/competition grid planted olive, orange, orange, olive. -/
def stW22 : DriftState := createForest 2 2 [0, 1, 1, 0]

/-- Competition step inputs on `stW22` whose rejection loop rejects draw 0
(coin 9/10 against bias 2/5) and accepts draw 1 (coin 1/10). -/
def compRandW : CompRand :=
  { iron := 1, calcium := 1, d := 0, cand := fun n => n % 2,
    coins := fun n => if n = 0 then (9 : ℚ) / 10 else 1 / 10, fuel := 2 }

/-- A 3×3 neighbor-exclusion grid alternating between two species: every
cell's 9-neighbourhood covers the whole grid, so both species are always
excluded. -/
def sdxW3 : Forest := Forest.create 3 2 [0, 1, 0, 1, 0, 1, 0, 1, 0]

/-- A 4×4 neighbor-exclusion grid that is all aspen except one orange at
cell 2, which lies outside the toroidal neighbourhood of cell 0. -/
def sdxW4 : Forest :=
  Forest.create 4 2 [0, 0, 1, 0, 0, 0, 0, 0, 0, 0, 0, 0, 0, 0, 0, 0]

/-- A 3×3 neighbor-exclusion state with a vacant cell, as produced by an
exhausted scan on `sdxW3` (cell 4 vacated); its census matches its counts. -/
def sdxVacW : Forest := sdxW3.replaceTree { d := 4, idx := 5 }

/-- The post-batch competition state of the C4 counterexample: orange has
conquered all 625 cells (olive extinct) at the very step where the clock
hits the 500000-step ceiling. -/
def c4State : DriftState :=
  { trees := List.replicate 625 1,
    census := fun j => if j = 1 then 625 else 0,
    stepCount := 500000 }

/-- A post-batch competition state where orange is extinct at clock 40 (no
ceiling coincidence). -/
def c4DoneState : DriftState :=
  { trees := List.replicate 625 0,
    census := fun j => if j = 0 then 625 else 0,
    stepCount := 40 }

/-! ## Theorems -/

theorem countSp_nil {α : Type} [DecidableEq α] (b : α) : countSp [] b = 0 := rfl

theorem countSp_cons {α : Type} [DecidableEq α] (x : α) (t : List α) (b : α) :
    countSp (x :: t) b = (if x = b then 1 else 0) + countSp t b := rfl

/-- Counting after a `List.set`: stated additively to avoid natural
subtraction. -/
theorem countSp_set {α : Type} [DecidableEq α] (l : List α) (d : Nat) (a b : α)
    (hd : d < l.length) :
    countSp (l.set d a) b + (if l.getD d a = b then 1 else 0)
      = countSp l b + (if a = b then 1 else 0) := by
  induction l generalizing d with
  | nil => simp at hd
  | cons x t ih =>
    cases d with
    | zero =>
      simp only [List.set, List.getD_cons_zero, countSp_cons]
      omega
    | succ d =>
      have hd' : d < t.length := by simpa using hd
      have := ih d hd'
      simp only [List.set, countSp_cons, List.getD_cons_succ]
      omega

/-- Setting an index out of range leaves counts unchanged. -/
theorem countSp_set_oob {α : Type} [DecidableEq α] (l : List α) (d : Nat) (a b : α)
    (hd : l.length ≤ d) :
    countSp (l.set d a) b = countSp l b := by
  rw [List.set_eq_of_length_le hd]

/-- Membership characterisation for `countSp`. -/
theorem countSp_eq_zero {α : Type} [DecidableEq α] (l : List α) (b : α)
    (h : b ∉ l) : countSp l b = 0 := by
  induction l with
  | nil => rfl
  | cons x t ih =>
    simp only [List.mem_cons, not_or] at h
    simp only [countSp_cons, ih h.2]
    have : ¬ x = b := fun hxb => h.1 hxb.symm
    simp [this]

/-- Summing `countSp` over all species indices below `k` together with the
out-of-range remainder counts every element of the list. -/
theorem sum_countSp (k : Nat) (l : List Nat) (hl : ∀ x ∈ l, x < k) :
    ∑ i ∈ Finset.range k, (countSp l i : Int) = (l.length : Int) := by
  induction l with
  | nil => simp [countSp]
  | cons x t ih =>
    have hx : x < k := hl x (List.mem_cons_self x t)
    have ht : ∀ y ∈ t, y < k := fun y hy => hl y (List.mem_cons_of_mem x hy)
    simp only [countSp_cons, List.length_cons]
    push_cast
    rw [Finset.sum_add_distrib, ih ht]
    have hone : (∑ i ∈ Finset.range k, (if x = i then (1 : Int) else 0)) = 1 := by
      rw [Finset.sum_ite_eq]
      simp [Finset.mem_range.mpr hx]
    rw [hone]
    ring

/-- Folded increments compute counts: pointwise value of the constructor's
census loop. -/
theorem foldl_censusInc (l : List Nat) (c : Nat → Int) (j : Nat) :
    (l.foldl (fun c sp => censusInc c sp) c) j = c j + (countSp l j : Int) := by
  induction l generalizing c with
  | nil => simp [countSp]
  | cons x t ih =>
    simp only [List.foldl_cons, ih, countSp_cons, censusInc]
    by_cases hx : x = j
    · subst hx
      simp only [if_pos rfl]
      push_cast
      ring
    · have hjx : ¬ j = x := fun h => hx h.symm
      simp only [if_neg hjx, if_neg hx]
      push_cast
      ring

/-- The census produced by `createForest` counts the species assignment. -/
theorem createForest_census (s k : Nat) (choices : List Nat) (j : Nat) :
    (createForest s k choices).census j = (countSp (speciesDraws s choices) j : Int) := by
  simp [createForest, foldl_censusInc]

/-- `createForest` makes exactly `s²` trees. -/
theorem createForest_length (s k : Nat) (choices : List Nat) :
    (createForest s k choices).trees.length = s * s := by
  simp [createForest, speciesDraws]

/-- Every constructed tree's species is one of the drawn choices (hence a
member of the species set when the draws are valid). -/
theorem createForest_species_lt (s k : Nat) (choices : List Nat) (hk : 0 < k)
    (hc : ∀ x ∈ choices, x < k) :
    ∀ x ∈ (createForest s k choices).trees, x < k := by
  intro x hx
  simp only [createForest, speciesDraws, List.mem_map] at hx
  obtain ⟨i, -, rfl⟩ := hx
  by_cases hi : i < choices.length
  · rw [choices.getD_eq_getElem 0 hi]
    exact hc _ (choices.getElem_mem hi)
  · rw [choices.getD_eq_default 0 (Nat.le_of_not_lt hi)]
    exact hk

/-- Decrementing an in-range key lowers the species total by one. -/
theorem speciesTotal_censusDec (k : Nat) (c : Nat → Int) (t : Nat) (ht : t < k) :
    speciesTotal k (censusDec c t) = speciesTotal k c - 1 := by
  unfold speciesTotal censusDec
  have hpt : ∀ i, (if i = t then c t - 1 else c i)
      = c i - (if i = t then (1 : Int) else 0) := by
    intro i
    by_cases h : i = t
    · subst h; simp
    · simp [h]
  simp only [hpt]
  rw [Finset.sum_sub_distrib]
  congr 1
  rw [Finset.sum_ite_eq']
  simp [Finset.mem_range.mpr ht]

/-- Incrementing an in-range key raises the species total by one. -/
theorem speciesTotal_censusInc (k : Nat) (c : Nat → Int) (t : Nat) (ht : t < k) :
    speciesTotal k (censusInc c t) = speciesTotal k c + 1 := by
  unfold speciesTotal censusInc
  have hpt : ∀ i, (if i = t then c t + 1 else c i)
      = c i + (if i = t then (1 : Int) else 0) := by
    intro i
    by_cases h : i = t
    · subst h; simp
    · simp [h]
  simp only [hpt]
  rw [Finset.sum_add_distrib]
  congr 1
  rw [Finset.sum_ite_eq']
  simp [Finset.mem_range.mpr ht]

/-- Decrement-then-increment moves the species total by zero when both keys
are in range. -/
theorem speciesTotal_dec_inc (k : Nat) (c : Nat → Int) (dep arr : Nat)
    (hdep : dep < k) (harr : arr < k) :
    speciesTotal k (censusInc (censusDec c dep) arr) = speciesTotal k c := by
  rw [speciesTotal_censusInc k _ arr harr, speciesTotal_censusDec k c dep hdep]
  ring

/-- Reading an in-range index of a list whose members are below `k` yields a
value below `k`. -/
theorem getD_lt_of_forall (l : List Nat) (k i : Nat) (hi : i < l.length)
    (hl : ∀ x ∈ l, x < k) : l.getD i 0 < k := by
  rw [l.getD_eq_getElem 0 hi]
  exact hl _ (l.getElem_mem hi)

/-- One immigration-variant replacement step preserves well-formedness (in
particular the census total). -/
theorem replaceTreeImm_wf (interval N k : Nat) (st : DriftState) (r : ImmRand)
    (hst : WFDrift N k st) (hr : ImmValid N k r) :
    WFDrift N k (replaceTreeImm interval st r) := by
  obtain ⟨hlen, hsp, htot⟩ := hst
  obtain ⟨hd, haSpec, haIdx⟩ := hr
  have hdep : st.trees.getD r.d 0 < k :=
    getD_lt_of_forall _ k r.d (hlen ▸ hd) hsp
  have harr : (if st.stepCount % interval = 0 then r.aSpec
      else st.trees.getD r.aIdx 0) < k := by
    by_cases h : st.stepCount % interval = 0
    · simpa [h] using haSpec
    · simpa [h] using getD_lt_of_forall _ k r.aIdx (hlen ▸ haIdx) hsp
  refine ⟨?_, ?_, ?_⟩
  · simpa [replaceTreeImm] using hlen
  · intro x hx
    rcases List.mem_or_eq_of_mem_set hx with hmem | rfl
    · exact hsp x hmem
    · exact harr
  · have hcensus : (replaceTreeImm interval st r).census
        = censusInc (censusDec st.census (st.trees.getD r.d 0))
            (if st.stepCount % interval = 0 then r.aSpec else st.trees.getD r.aIdx 0) := rfl
    rw [hcensus, speciesTotal_dec_inc k st.census _ _ hdep harr]
    exact htot

/-- A run of valid immigration steps preserves well-formedness. -/
theorem runImm_wf (interval N k : Nat) (st : DriftState) (rs : List ImmRand)
    (hst : WFDrift N k st) (hrs : ∀ r ∈ rs, ImmValid N k r) :
    WFDrift N k (runImm interval st rs) := by
  induction rs generalizing st with
  | nil => simpa [runImm] using hst
  | cons r t ih =>
    have h1 : WFDrift N k (replaceTreeImm interval st r) :=
      replaceTreeImm_wf interval N k st r hst (hrs r (List.mem_cons_self r t))
    have ht : ∀ x ∈ t, ImmValid N k x := fun x hx => hrs x (List.mem_cons_of_mem r hx)
    simpa [runImm, List.foldl_cons] using ih (replaceTreeImm interval st r) h1 ht

/-- A freshly constructed forest is well-formed: `s²` cells, species in range,
census totalling `s²`. -/
theorem createForest_wf (s k : Nat) (choices : List Nat) (hk : 0 < k)
    (hc : ∀ x ∈ choices, x < k) :
    WFDrift (s * s) k (createForest s k choices) := by
  refine ⟨createForest_length s k choices, createForest_species_lt s k choices hk hc, ?_⟩
  have hdraws : ∀ x ∈ speciesDraws s choices, x < k := by
    intro x hx
    exact createForest_species_lt s k choices hk hc x (by simpa [createForest] using hx)
  unfold speciesTotal
  have := sum_countSp k (speciesDraws s choices) hdraws
  simp only [createForest_census]
  rw [this]
  simp [speciesDraws]

/-- Each immigration-variant step advances the clock by exactly one. -/
theorem replaceTreeImm_stepCount (interval : Nat) (st : DriftState) (r : ImmRand) :
    (replaceTreeImm interval st r).stepCount = st.stepCount + 1 := rfl

/-- A batch of `B` immigration-variant steps advances the clock by exactly `B`. -/
theorem runImm_stepCount (interval : Nat) (st : DriftState) (rs : List ImmRand) :
    (runImm interval st rs).stepCount = st.stepCount + rs.length := by
  induction rs generalizing st with
  | nil => simp [runImm]
  | cons r t ih =>
    simp only [runImm, List.foldl_cons, List.length_cons]
    have := ih (replaceTreeImm interval st r)
    simp only [runImm] at this
    rw [this, replaceTreeImm_stepCount]
    omega

/-- Characterisation of the rejection loop: an accepted result is the species
of the first accepted candidate, acceptance of draw `m` being exactly
`coins m < bias m`. -/
theorem rejectionLoop_spec (trees : List Nat) (oliveF orangeF : ℚ)
    (cand : Nat → Nat) (coins : Nat → ℚ) (fuel n sp : Nat)
    (h : rejectionLoop trees oliveF orangeF cand coins fuel n = some sp) :
    ∃ t < fuel, sp = trees.getD (cand (n + t)) 0
      ∧ coins (n + t) < (if trees.getD (cand (n + t)) 0 = 0 then oliveF else orangeF)
      ∧ ∀ u < t, ¬ coins (n + u)
          < (if trees.getD (cand (n + u)) 0 = 0 then oliveF else orangeF) := by
  induction fuel generalizing n with
  | zero => simp [rejectionLoop] at h
  | succ fuel ih =>
    rw [rejectionLoop] at h
    by_cases hacc : coins n < (if trees.getD (cand n) 0 = 0 then oliveF else orangeF)
    · refine ⟨0, Nat.succ_pos fuel, ?_, ?_, ?_⟩
      · simp only [if_pos hacc] at h
        simpa using (Option.some.inj h).symm
      · simpa using hacc
      · intro u hu
        omega
    · simp only [if_neg hacc] at h
      obtain ⟨t, ht, hsp, hc, hrej⟩ := ih (n + 1) h
      refine ⟨t + 1, by omega, ?_, ?_, ?_⟩
      · simpa [Nat.add_assoc, Nat.add_comm 1 t] using hsp
      · simpa [Nat.add_assoc, Nat.add_comm 1 t] using hc
      · intro u hu
        cases u with
        | zero => simpa using hacc
        | succ u =>
          have := hrej u (by omega)
          simpa [Nat.add_assoc, Nat.add_comm 1 u] using this

/-- Unpacking a successful competition step: the loop accepted some species
and the state was updated with it.  The two loop biases are exactly the
specification's pressure factors computed from the pre-step census. -/
theorem replaceTreeComp_some (st : DriftState) (r : CompRand) (st' : DriftState)
    (h : replaceTreeComp st r = some st') :
    ∃ sp, rejectionLoop st.trees
        (pressureFactor r.iron (st.census 0) (st.census 1) poachingCoef)
        (pressureFactor r.calcium (st.census 1) (st.census 0) poachingCoef)
        r.cand r.coins r.fuel 0 = some sp
      ∧ st' = { trees := st.trees.set r.d sp,
                census := censusInc (censusDec st.census (st.trees.getD r.d 0)) sp,
                stepCount := st.stepCount + 1 } := by
  unfold replaceTreeComp at h
  rw [Option.map_eq_some'] at h
  obtain ⟨sp, hloop, hbody⟩ := h
  exact ⟨sp, hloop, hbody.symm⟩

/-- A species accepted by the rejection loop is the current species of some
tree, hence in the two-species set when the state is well-formed and the
candidate draws are in range. -/
theorem rejectionLoop_species_lt (trees : List Nat) (oliveF orangeF : ℚ)
    (cand : Nat → Nat) (coins : Nat → ℚ) (fuel sp N : Nat)
    (hlen : trees.length = N) (hsp : ∀ x ∈ trees, x < 2)
    (hcand : ∀ n, cand n < N)
    (h : rejectionLoop trees oliveF orangeF cand coins fuel 0 = some sp) :
    sp < 2 := by
  obtain ⟨t, -, hspec, -, -⟩ :=
    rejectionLoop_spec trees oliveF orangeF cand coins fuel 0 sp h
  subst hspec
  exact getD_lt_of_forall trees 2 _ (hlen ▸ hcand (0 + t)) hsp

/-- A successful competition replacement step preserves well-formedness. -/
theorem replaceTreeComp_wf (N : Nat) (st st' : DriftState) (r : CompRand)
    (hst : WFDrift N 2 st) (hd : r.d < N) (hcand : ∀ n, r.cand n < N)
    (h : replaceTreeComp st r = some st') : WFDrift N 2 st' := by
  obtain ⟨hlen, hsp, htot⟩ := hst
  obtain ⟨sp, hloop, rfl⟩ := replaceTreeComp_some st r st' h
  have harr : sp < 2 :=
    rejectionLoop_species_lt st.trees _ _ r.cand r.coins r.fuel sp N hlen hsp hcand hloop
  have hdep : st.trees.getD r.d 0 < 2 :=
    getD_lt_of_forall _ 2 r.d (hlen ▸ hd) hsp
  refine ⟨by simpa using hlen, ?_, ?_⟩
  · intro x hx
    rcases List.mem_or_eq_of_mem_set hx with hmem | rfl
    · exact hsp x hmem
    · exact harr
  · show speciesTotal 2 (censusInc (censusDec st.census (st.trees.getD r.d 0)) sp)
        = (N : Int)
    rw [speciesTotal_dec_inc 2 st.census _ _ hdep harr]
    exact htot

/-- A run of successful valid competition steps preserves well-formedness. -/
theorem runComp_wf (N : Nat) (st st' : DriftState) (rs : List CompRand)
    (hst : WFDrift N 2 st)
    (hrs : ∀ r ∈ rs, r.d < N ∧ ∀ n, r.cand n < N)
    (h : runComp st rs = some st') : WFDrift N 2 st' := by
  induction rs generalizing st with
  | nil =>
    simp only [runComp, Option.some.injEq] at h
    exact h ▸ hst
  | cons r t ih =>
    simp only [runComp] at h
    cases hstep : replaceTreeComp st r with
    | none => rw [hstep] at h; exact absurd h (by simp)
    | some st1 =>
      rw [hstep] at h
      have hr := hrs r (List.mem_cons_self r t)
      have h1 : WFDrift N 2 st1 := replaceTreeComp_wf N st st1 r hst hr.1 hr.2 hstep
      exact ih st1 h1 (fun x hx => hrs x (List.mem_cons_of_mem r hx)) h

/-! ### Arithmetic facts about the toroidal indexing -/

/-- `modAdd` stays in `[0, m)` whenever its inputs are in the range the
program supplies (`a ∈ [0, m)`, `b ∈ [-m, m)`). -/
theorem modAdd_bounds (a b m : Int) (hm : 0 < m) (ha0 : 0 ≤ a) (ha1 : a < m)
    (hb0 : -m ≤ b) (hb1 : b ≤ m) : 0 ≤ modAdd a b m ∧ modAdd a b m < m := by
  simp only [modAdd]
  split_ifs <;> omega

/-- `toNat` of a nonnegative linear combination. -/
theorem toNat_linear (x y : Int) (s : Nat) (hx : 0 ≤ x) (hy : 0 ≤ y) :
    (x + y * (s : Int)).toNat = x.toNat + y.toNat * s := by
  obtain ⟨xn, rfl⟩ := Int.eq_ofNat_of_zero_le hx
  obtain ⟨yn, rfl⟩ := Int.eq_ofNat_of_zero_le hy
  rw [show ((xn : Int) + (yn : Int) * (s : Int)) = ((xn + yn * s : Nat) : Int) by push_cast; ring]
  exact Int.toNat_natCast _

/-- All nine neighbourhood indices are in range. -/
theorem nbrIdx_lt (s d : Nat) (h v : Int) (hs : 0 < s) (hd : d < s * s)
    (hh : -1 ≤ h ∧ h ≤ 1) (hv : -1 ≤ v ∧ v ≤ 1) : nbrIdx s d h v < s * s := by
  have hc0 : (0 : Int) ≤ ((d % s : Nat) : Int) := Int.ofNat_nonneg _
  have hc1 : ((d % s : Nat) : Int) < (s : Int) := by
    exact_mod_cast Nat.mod_lt d hs
  have hr0 : (0 : Int) ≤ ((d / s : Nat) : Int) := Int.ofNat_nonneg _
  have hr1 : ((d / s : Nat) : Int) < (s : Int) := by
    exact_mod_cast Nat.div_lt_of_lt_mul hd
  have hsi : (0 : Int) < (s : Int) := by exact_mod_cast hs
  obtain ⟨hX0, hX1⟩ := modAdd_bounds _ h _ hsi hc0 hc1 (by omega) (by omega)
  obtain ⟨hY0, hY1⟩ := modAdd_bounds _ v _ hsi hr0 hr1 (by omega) (by omega)
  unfold nbrIdx
  rw [toNat_linear _ _ s hX0 hY0]
  set X := modAdd ((d % s : Nat) : Int) h (s : Int) with hX
  set Y := modAdd ((d / s : Nat) : Int) v (s : Int) with hY
  have hXn : X.toNat < s := by omega
  have hYn : Y.toNat < s := by omega
  have hlt : X.toNat + Y.toNat * s < (Y.toNat + 1) * s := by
    rw [Nat.succ_mul]
    omega
  exact Nat.lt_of_lt_of_le hlt (Nat.mul_le_mul_right s (Nat.succ_le_of_lt hYn))

/-- `modAdd x 0 m = x` on the in-range values the program supplies. -/
theorem modAdd_zero_eq (x m : Int) (hx0 : 0 ≤ x) (hx1 : x < m) :
    modAdd x 0 m = x := by
  simp only [modAdd]
  split_ifs <;> omega

/-- The centre entry of the neighbourhood list is the cell itself. -/
theorem nbrIdx_center (s d : Nat) (hs : 0 < s) (hd : d < s * s) :
    nbrIdx s d 0 0 = d := by
  have hc1 : ((d % s : Nat) : Int) < (s : Int) := by exact_mod_cast Nat.mod_lt d hs
  have hr1 : ((d / s : Nat) : Int) < (s : Int) := by
    exact_mod_cast Nat.div_lt_of_lt_mul hd
  have hmc := modAdd_zero_eq ((d % s : Nat) : Int) (s : Int) (Int.ofNat_nonneg _) hc1
  have hmr := modAdd_zero_eq ((d / s : Nat) : Int) (s : Int) (Int.ofNat_nonneg _) hr1
  unfold nbrIdx
  rw [hmc, hmr, toNat_linear _ _ s (Int.ofNat_nonneg _) (Int.ofNat_nonneg _)]
  simp only [Int.toNat_natCast]
  exact Nat.mod_add_div' d s

/-- On a grid of side at least 2, no proper neighbour coincides with the
centre cell. -/
theorem nbrIdx_ne_center (s d : Nat) (h v : Int) (hs : 2 ≤ s) (hd : d < s * s)
    (hh : -1 ≤ h ∧ h ≤ 1) (hv : -1 ≤ v ∧ v ≤ 1) (hne : ¬(h = 0 ∧ v = 0)) :
    nbrIdx s d h v ≠ d := by
  intro heq
  have hs0 : 0 < s := by omega
  have hc0 : (0 : Int) ≤ ((d % s : Nat) : Int) := Int.ofNat_nonneg _
  have hc1 : ((d % s : Nat) : Int) < (s : Int) := by exact_mod_cast Nat.mod_lt d hs0
  have hr0 : (0 : Int) ≤ ((d / s : Nat) : Int) := Int.ofNat_nonneg _
  have hr1 : ((d / s : Nat) : Int) < (s : Int) := by
    exact_mod_cast Nat.div_lt_of_lt_mul hd
  have hsi : (0 : Int) < (s : Int) := by exact_mod_cast hs0
  obtain ⟨hX0, hX1⟩ := modAdd_bounds _ h _ hsi hc0 hc1 (by omega) (by omega)
  obtain ⟨hY0, hY1⟩ := modAdd_bounds _ v _ hsi hr0 hr1 (by omega) (by omega)
  unfold nbrIdx at heq
  rw [toNat_linear _ _ s hX0 hY0] at heq
  set X := modAdd ((d % s : Nat) : Int) h (s : Int) with hXdef
  set Y := modAdd ((d / s : Nat) : Int) v (s : Int) with hYdef
  have hXn : X.toNat < s := by omega
  have hmod : (X.toNat + Y.toNat * s) % s = X.toNat % s := Nat.add_mul_mod_self_right _ _ _
  have hXeq : X.toNat = d % s := by
    rw [heq] at hmod
    rw [Nat.mod_eq_of_lt hXn] at hmod
    omega
  have hdiv : (X.toNat + Y.toNat * s) / s = X.toNat / s + Y.toNat :=
    Nat.add_mul_div_right _ _ hs0
  have hYeq : Y.toNat = d / s := by
    rw [heq] at hdiv
    rw [Nat.div_eq_of_lt hXn] at hdiv
    omega
  have hXint : X = ((d % s : Nat) : Int) := by omega
  have hYint : Y = ((d / s : Nat) : Int) := by omega
  have hzero : h = 0 := by
    rw [hXdef] at hXint
    simp only [modAdd] at hXint
    split_ifs at hXint <;> omega
  have vzero : v = 0 := by
    rw [hYdef] at hYint
    simp only [modAdd] at hYint
    split_ifs at hYint <;> omega
  exact hne ⟨hzero, vzero⟩

/-! ### Properties of the candidate scan -/

/-- Scan positions stay in `[0, N)` for the offsets the loop visits. -/
theorem scanPos_lt (idx N i : Nat) (hidx : idx < N) (hi : i ≤ N) :
    scanPos idx N i < N := by
  have hN : (0 : Int) < (N : Int) := by
    have hN0 : 0 < N := by omega
    exact_mod_cast hN0
  obtain ⟨h0, h1⟩ := modAdd_bounds (idx : Int) (i : Int) (N : Int) hN
    (Int.ofNat_nonneg _) (by exact_mod_cast hidx) (by omega)
    (by exact_mod_cast hi)
  unfold scanPos
  omega

/-- A successful scan returns the species of the first eligible cell in the
circular order: the accepted cell's species is non-vacant and not excluded,
and every cell visited earlier is vacant or carries an excluded species. -/
theorem scanFrom_some (trees : List (Option Nat)) (N : Nat) (excluded : List Nat)
    (idx : Nat) (rem i sp : Nat)
    (h : scanFrom trees N excluded idx rem i = some sp) :
    ∃ t < rem, trees.getD (scanPos idx N (i + t)) none = some sp
      ∧ sp ∉ excluded
      ∧ ∀ u < t, ∀ q, trees.getD (scanPos idx N (i + u)) none = some q →
          q ∈ excluded := by
  induction rem generalizing i with
  | zero => simp [scanFrom] at h
  | succ rem ih =>
    rw [scanFrom] at h
    cases hcell : trees.getD (scanPos idx N i) none with
    | none =>
      rw [hcell] at h
      obtain ⟨t, ht, hsp, hnotex, hfirst⟩ := ih (i + 1) h
      refine ⟨t + 1, by omega, ?_, hnotex, ?_⟩
      · rw [show i + (t + 1) = i + 1 + t by omega]
        exact hsp
      · intro u hu q hq
        cases u with
        | zero =>
          rw [Nat.add_zero] at hq
          rw [hcell] at hq
          exact absurd hq (by simp)
        | succ u =>
          refine hfirst u (by omega) q ?_
          rw [show i + 1 + u = i + (u + 1) by omega]
          exact hq
    | some q =>
      rw [hcell] at h
      have h2 : (if q ∈ excluded then scanFrom trees N excluded idx rem (i + 1)
          else some q) = some sp := h
      by_cases hex : q ∈ excluded
      · rw [if_pos hex] at h2
        obtain ⟨t, ht, hsp, hnotex, hfirst⟩ := ih (i + 1) h2
        refine ⟨t + 1, by omega, ?_, hnotex, ?_⟩
        · rw [show i + (t + 1) = i + 1 + t by omega]
          exact hsp
        · intro u hu q' hq'
          cases u with
          | zero =>
            rw [Nat.add_zero] at hq'
            rw [hcell] at hq'
            cases hq'
            exact hex
          | succ u =>
            refine hfirst u (by omega) q' ?_
            rw [show i + 1 + u = i + (u + 1) by omega]
            exact hq'
      · rw [if_neg hex] at h2
        obtain rfl : q = sp := Option.some.inj h2
        refine ⟨0, by omega, by simpa using hcell, hex, ?_⟩
        intro u hu
        exact absurd hu (by omega)

/-- A replacement species produced by the full scan is the current species of
some cell of the grid. -/
theorem scanForReplacement_mem (trees : List (Option Nat)) (N : Nat)
    (excluded : List Nat) (idx sp : Nat) (hidx : idx < N)
    (h : scanForReplacement trees N excluded idx = some sp) :
    ∃ p < N, trees.getD p none = some sp ∧ sp ∉ excluded := by
  obtain ⟨t, ht, hsp, hnotex, -⟩ := scanFrom_some trees N excluded idx N 0 sp h
  exact ⟨scanPos idx N t, scanPos_lt idx N t hidx (by omega), by simpa using hsp, hnotex⟩

/-- Pointwise census preservation: one `replaceTree` step keeps every species
key equal to the count of cells carrying that species. -/
theorem replaceTree_census_pointwise (f : Forest) (r : SdxRand) (i : Nat)
    (hlen : f.trees.length = f.N) (hd : r.d < f.N)
    (hinv : f.census (some i) = some ((countSp f.trees (some i) : Int))) :
    (f.replaceTree r).census (some i)
      = some ((countSp (f.replaceTree r).trees (some i) : Int)) := by
  have hdlen : r.d < f.trees.length := hlen ▸ hd
  have hgetD : ∀ a : Option Nat, f.trees.getD r.d a = f.trees.getD r.d none := by
    intro a
    rw [f.trees.getD_eq_getElem a hdlen, f.trees.getD_eq_getElem none hdlen]
  cases hscan : scanForReplacement f.trees f.N (listNeighborSpecies f.trees f.s r.d) r.idx with
  | none =>
    have htrees : (f.replaceTree r).trees = f.trees.set r.d none := by
      simp only [Forest.replaceTree, hscan]
    have hcensus : (f.replaceTree r).census
        = objDec f.census (f.trees.getD r.d none) := by
      simp only [Forest.replaceTree, hscan]
    have hcount := countSp_set f.trees r.d none (some i) hdlen
    rw [hgetD none] at hcount
    rw [if_neg (show ¬ (none : Option Nat) = some i by simp)] at hcount
    rw [htrees, hcensus]
    unfold objDec
    by_cases hdep : f.trees.getD r.d none = some i
    · rw [if_pos hdep.symm, hdep, hinv]
      rw [if_pos hdep] at hcount
      simp only [Option.map_some']
      congr 1
      omega
    · rw [if_neg (fun hh => hdep hh.symm), hinv]
      rw [if_neg hdep] at hcount
      congr 2
      omega
  | some sp =>
    have htrees : (f.replaceTree r).trees = f.trees.set r.d (some sp) := by
      simp only [Forest.replaceTree, hscan]
    have hcensus : (f.replaceTree r).census
        = objInc (objDec f.census (f.trees.getD r.d none)) (some sp) := by
      simp only [Forest.replaceTree, hscan]
    have hcount := countSp_set f.trees r.d (some sp) (some i) hdlen
    rw [hgetD (some sp)] at hcount
    rw [htrees, hcensus]
    unfold objInc objDec
    by_cases hisp : sp = i
    · subst hisp
      rw [if_pos rfl]
      rw [if_pos rfl] at hcount
      by_cases hdep : f.trees.getD r.d none = some sp
      · rw [if_pos hdep.symm, hdep, hinv]
        rw [if_pos hdep] at hcount
        simp only [Option.map_some']
        congr 1
        omega
      · rw [if_neg (fun hh => hdep hh.symm), hinv]
        rw [if_neg hdep] at hcount
        simp only [Option.map_some']
        congr 1
        omega
    · rw [if_neg (fun hh : (some i : Option Nat) = some sp =>
        hisp (Option.some.inj hh).symm)]
      rw [if_neg (fun hh : (some sp : Option Nat) = some i =>
        hisp (Option.some.inj hh))] at hcount
      by_cases hdep : f.trees.getD r.d none = some i
      · rw [if_pos hdep.symm, hdep, hinv]
        rw [if_pos hdep] at hcount
        simp only [Option.map_some']
        congr 1
        omega
      · rw [if_neg (fun hh => hdep hh.symm), hinv]
        rw [if_neg hdep] at hcount
        congr 2
        omega

/-- One neighbor-exclusion replacement step preserves well-formedness. -/
theorem replaceTree_wf (f : Forest) (r : SdxRand) (hd : r.d < f.N)
    (hidx : r.idx < f.N) (hwf : WFForest f) : WFForest (f.replaceTree r) := by
  obtain ⟨hNs, hlen, hrange, hcensus⟩ := hwf
  refine ⟨hNs, ?_, ?_, ?_⟩
  · cases hscan : scanForReplacement f.trees f.N (listNeighborSpecies f.trees f.s r.d) r.idx with
    | none => simpa [Forest.replaceTree, hscan] using hlen
    | some sp => simpa [Forest.replaceTree, hscan] using hlen
  · intro x hx j hj
    cases hscan : scanForReplacement f.trees f.N (listNeighborSpecies f.trees f.s r.d) r.idx with
    | none =>
      have htrees : (f.replaceTree r).trees = f.trees.set r.d none := by
        simp only [Forest.replaceTree, hscan]
      rw [htrees] at hx
      rcases List.mem_or_eq_of_mem_set hx with hmem | rfl
      · exact hrange x hmem j hj
      · exact absurd hj (by simp)
    | some sp =>
      have htrees : (f.replaceTree r).trees = f.trees.set r.d (some sp) := by
        simp only [Forest.replaceTree, hscan]
      rw [htrees] at hx
      rcases List.mem_or_eq_of_mem_set hx with hmem | rfl
      · exact hrange x hmem j hj
      · obtain ⟨p, hp, hsp, -⟩ :=
          scanForReplacement_mem f.trees f.N _ r.idx sp hidx hscan
        obtain rfl : sp = j := Option.some.inj hj
        have hplen : p < f.trees.length := hlen ▸ hp
        rw [f.trees.getD_eq_getElem none hplen] at hsp
        exact hrange _ (f.trees.getElem_mem hplen) sp hsp
  · intro i hi
    exact replaceTree_census_pointwise f r i hlen hd (hcensus i hi)

/-- `countSp` through `map some`. -/
theorem countSp_map_some (l : List Nat) (i : Nat) :
    countSp (l.map some) (some i) = countSp l i := by
  induction l with
  | nil => rfl
  | cons x t ih =>
    simp only [List.map_cons, countSp_cons, ih]
    by_cases hx : x = i
    · simp [hx]
    · simp [hx, fun hh : (some x : Option Nat) = some i => hx (Option.some.inj hh)]

/-- A grid fresh from the constructor has no vacant cells. -/
theorem countSp_map_some_none (l : List Nat) :
    countSp (l.map some) (none : Option Nat) = 0 := by
  induction l with
  | nil => rfl
  | cons x t ih => simp [countSp_cons, ih]

/-- Pointwise value of the constructor's census fold (neighbor-exclusion
model). -/
theorem foldl_objInc (l : List Nat) (c : Option Nat → Option Int) (i : Nat)
    (v : Int) (hc : c (some i) = some v) :
    (l.foldl (fun c sp => objInc c (some sp)) c) (some i)
      = some (v + (countSp l i : Int)) := by
  induction l generalizing c v with
  | nil => simpa [countSp] using hc
  | cons x t ih =>
    simp only [List.foldl_cons, countSp_cons]
    by_cases hx : x = i
    · subst hx
      have hc' : (objInc c (some x)) (some x) = some (v + 1) := by
        unfold objInc
        rw [if_pos rfl, hc]
        rfl
      rw [ih (objInc c (some x)) (v + 1) hc']
      have hxx : ((if x = x then 1 else 0 : Nat)) = 1 := if_pos rfl
      rw [hxx]
      congr 1
      push_cast
      ring
    · have hc' : (objInc c (some x)) (some i) = some v := by
        unfold objInc
        rw [if_neg (fun hh : (some i : Option Nat) = some x => hx (Option.some.inj hh).symm)]
        exact hc
      rw [ih (objInc c (some x)) v hc']
      congr 1
      simp [hx]

/-- A freshly constructed `Forest` is well-formed. -/
theorem Forest.create_wf (s k : Nat) (choices : List Nat) (hk : 0 < k)
    (hc : ∀ x ∈ choices, x < k) : WFForest (Forest.create s k choices) := by
  refine ⟨rfl, by simp [Forest.create, speciesDraws], ?_, ?_⟩
  · intro x hx j hj
    simp only [Forest.create, List.mem_map] at hx
    obtain ⟨y, hy, rfl⟩ := hx
    obtain rfl : y = j := Option.some.inj hj
    simp only [speciesDraws, List.mem_map] at hy
    obtain ⟨p, -, rfl⟩ := hy
    by_cases hp : p < choices.length
    · rw [choices.getD_eq_getElem 0 hp]
      exact hc _ (choices.getElem_mem hp)
    · rw [choices.getD_eq_default 0 (Nat.le_of_not_lt hp)]
      exact hk
  · intro i hi
    have hik : i < k := hi
    have hinit : initCensus k (some i) = some 0 := by
      simp [initCensus, hik]
    have := foldl_objInc (speciesDraws s choices) (initCensus k) i 0 hinit
    simp only [Forest.create]
    rw [this, countSp_map_some]
    simp

/-- A run of valid neighbor-exclusion steps preserves well-formedness.  (The
step never changes `N`, `s` or the species count, so validity of the random
draws is stated against the start state.) -/
theorem runSdx_wf (f : Forest) (rs : List SdxRand)
    (hrs : ∀ r ∈ rs, r.d < f.N ∧ r.idx < f.N) (hwf : WFForest f) :
    WFForest (runSdx f rs) := by
  induction rs generalizing f with
  | nil => simpa [runSdx] using hwf
  | cons r t ih =>
    have hr := hrs r (List.mem_cons_self r t)
    have h1 : WFForest (f.replaceTree r) := replaceTree_wf f r hr.1 hr.2 hwf
    have hN : (f.replaceTree r).N = f.N := rfl
    have ht : ∀ x ∈ t, x.d < (f.replaceTree r).N ∧ x.idx < (f.replaceTree r).N := by
      intro x hx
      rw [hN]
      exact hrs x (List.mem_cons_of_mem r hx)
    simpa [runSdx, List.foldl_cons] using ih (f.replaceTree r) ht h1

/-- Summing species counts over the species set together with the vacancy
count exhausts the grid. -/
theorem sum_countSp_opt (k : Nat) (l : List (Option Nat))
    (hl : ∀ x ∈ l, ∀ j, x = some j → j < k) :
    (∑ i ∈ Finset.range k, (countSp l (some i) : Int)) + (countSp l none : Int)
      = (l.length : Int) := by
  induction l with
  | nil => simp [countSp]
  | cons x t ih =>
    have ht : ∀ y ∈ t, ∀ j, y = some j → j < k :=
      fun y hy => hl y (List.mem_cons_of_mem x hy)
    have iht := ih ht
    cases x with
    | none =>
      simp only [countSp_cons, List.length_cons]
      have hz : ∀ i : Nat, ((if (none : Option Nat) = some i then 1 else 0))
          + countSp t (some i) = countSp t (some i) := by
        intro i
        simp
      rw [Finset.sum_congr rfl (fun i _ => by rw [hz i])]
      simp only [if_true]
      push_cast
      push_cast at iht
      omega
    | some j =>
      have hj : j < k := hl (some j) (List.mem_cons_self _ t) j rfl
      simp only [countSp_cons, List.length_cons]
      have hnone : ((if (some j : Option Nat) = none then 1 else 0))
          + countSp t none = countSp t none := by
        simp
      rw [hnone]
      have hsum : (∑ i ∈ Finset.range k,
            ((((if (some j : Option Nat) = some i then 1 else 0)
              + countSp t (some i) : Nat)) : Int))
          = ∑ i ∈ Finset.range k,
              ((if j = i then (1 : Int) else 0) + (countSp t (some i) : Int)) := by
        refine Finset.sum_congr rfl (fun i _ => ?_)
        push_cast
        by_cases h : j = i
        · simp [h]
        · simp [h, fun hh : (some j : Option Nat) = some i => h (Option.some.inj hh)]
      rw [hsum, Finset.sum_add_distrib]
      have hone : (∑ i ∈ Finset.range k, (if j = i then (1 : Int) else 0)) = 1 := by
        rw [Finset.sum_ite_eq]
        simp [Finset.mem_range.mpr hj]
      rw [hone]
      push_cast
      push_cast at iht
      omega

/-- Setting one cell leaves every other read unchanged. -/
theorem getD_set_ne {α : Type} (l : List α) (d j : Nat) (a b : α) (hne : j ≠ d) :
    (l.set d a).getD j b = l.getD j b := by
  by_cases hj : j < l.length
  · have hj' : j < (l.set d a).length := by simpa using hj
    rw [List.getD_eq_getElem _ _ hj', List.getD_eq_getElem _ _ hj]
    exact l.getElem_set_ne (fun hh => hne hh.symm) hj'
  · have hj' : ¬ j < (l.set d a).length := by simpa using hj
    rw [List.getD_eq_default _ _ (Nat.le_of_not_lt hj'),
      List.getD_eq_default _ _ (Nat.le_of_not_lt hj)]

/-- Reading the cell just set. -/
theorem getD_set_self {α : Type} (l : List α) (d : Nat) (a b : α)
    (hd : d < l.length) : (l.set d a).getD d b = a := by
  have hd' : d < (l.set d a).length := by simpa using hd
  rw [List.getD_eq_getElem _ _ hd']
  exact l.getElem_set_self hd'

/-- Every ring index is one of the nine neighbourhood indices. -/
theorem ringIndices_subset (s d : Nat) :
    ∀ j ∈ ringIndices s d, j ∈ neighborIndices s d := by
  intro j hj
  simp only [ringIndices, List.mem_cons, List.not_mem_nil, or_false] at hj
  rcases hj with rfl | rfl | rfl | rfl | rfl | rfl | rfl | rfl <;>
    simp [neighborIndices]

/-- On a grid of side at least 2, no ring index is the centre cell. -/
theorem ringIndices_ne_center (s d : Nat) (hs : 2 ≤ s) (hd : d < s * s) :
    ∀ j ∈ ringIndices s d, j ≠ d := by
  intro j hj
  simp only [ringIndices, List.mem_cons, List.not_mem_nil, or_false] at hj
  rcases hj with rfl | rfl | rfl | rfl | rfl | rfl | rfl | rfl <;>
    exact nbrIdx_ne_center s d _ _ hs hd (by norm_num) (by norm_num) (by norm_num)

/-- A species sitting on any of the nine neighbourhood cells is recorded in
the neighbourhood species list. -/
theorem mem_listNeighborSpecies (trees : List (Option Nat)) (s d j q : Nat)
    (hj : j ∈ neighborIndices s d) (hq : trees.getD j none = some q) :
    q ∈ listNeighborSpecies trees s d := by
  unfold listNeighborSpecies
  rw [List.mem_filterMap]
  exact ⟨j, hj, hq⟩

/-- `runSdx` never touches the geometry or species-count fields. -/
theorem runSdx_fields (f : Forest) (rs : List SdxRand) :
    (runSdx f rs).N = f.N ∧ (runSdx f rs).s = f.s
      ∧ (runSdx f rs).numSpecies = f.numSpecies := by
  induction rs generalizing f with
  | nil => exact ⟨rfl, rfl, rfl⟩
  | cons r t ih =>
    have hstep : ((f.replaceTree r).N = f.N ∧ (f.replaceTree r).s = f.s
        ∧ (f.replaceTree r).numSpecies = f.numSpecies) := ⟨rfl, rfl, rfl⟩
    have := ih (f.replaceTree r)
    simp only [runSdx, List.foldl_cons] at *
    exact ⟨hstep.1 ▸ this.1, hstep.2.1 ▸ this.2.1, hstep.2.2 ▸ this.2.2⟩

/-- The arriving species written by one immigration-variant step: the
species-list draw when the pre-increment clock is divisible by the interval,
the sampled living cell's species otherwise. -/
theorem replaceTreeImm_arrival (interval : Nat) (st : DriftState) (r : ImmRand)
    (hd : r.d < st.trees.length) :
    (st.stepCount % interval = 0 →
      (replaceTreeImm interval st r).trees.getD r.d 0 = r.aSpec)
    ∧ (¬ st.stepCount % interval = 0 →
      (replaceTreeImm interval st r).trees.getD r.d 0 = st.trees.getD r.aIdx 0) := by
  have hset : ∀ a : Nat, (st.trees.set r.d a).getD r.d 0 = a :=
    fun a => getD_set_self st.trees r.d a 0 hd
  constructor
  · intro h
    show (st.trees.set r.d
      (if st.stepCount % interval = 0 then r.aSpec else st.trees.getD r.aIdx 0)).getD r.d 0
      = r.aSpec
    rw [if_pos h]
    exact hset _
  · intro h
    show (st.trees.set r.d
      (if st.stepCount % interval = 0 then r.aSpec else st.trees.getD r.aIdx 0)).getD r.d 0
      = st.trees.getD r.aIdx 0
    rw [if_neg h]
    exact hset _

/-! ## The claims -/

/-- C5: in the drift-with-immigration variant, the arriving species is the
uniform draw from the full species list exactly when the pre-increment clock
value is divisible by the immigration interval, and otherwise it is the
current species of the second randomly drawn cell; with interval 1 every
replacement is an immigration event.  (All configurable intervals of the
program are positive.) -/
theorem C5_immigration_condition (interval : Nat) (st : DriftState)
    (r : ImmRand) (hint : 0 < interval) (hd : r.d < st.trees.length) :
    ((st.stepCount % interval = 0 →
        (replaceTreeImm interval st r).trees.getD r.d 0 = r.aSpec)
      ∧ (¬ st.stepCount % interval = 0 →
        (replaceTreeImm interval st r).trees.getD r.d 0 = st.trees.getD r.aIdx 0))
    ∧ (interval = 1 →
        (replaceTreeImm interval st r).trees.getD r.d 0 = r.aSpec) := by
  have hmain := replaceTreeImm_arrival interval st r hd
  refine ⟨hmain, ?_⟩
  intro h1
  subst h1
  exact hmain.1 (Nat.mod_one _)

/-- C5 witness: a concrete 2×2 grid; at clock 0 with interval 1 the arrival
is the species-list draw. -/
theorem C5_witness :
    0 < 1
    ∧ 2 < (createForest 2 2 [0, 1, 1, 0]).trees.length
    ∧ (replaceTreeImm 1 (createForest 2 2 [0, 1, 1, 0])
        { d := 2, aSpec := 1, aIdx := 3 }).trees.getD 2 0 = 1 := by
  refine ⟨by decide, by decide, ?_⟩
  exact (C5_immigration_condition 1 (createForest 2 2 [0, 1, 1, 0])
    { d := 2, aSpec := 1, aIdx := 3 } (by decide) (by decide)).2 rfl

/-- C7: every accepted replacement advances the clock by exactly one, in all
three variants; rejected candidate draws of the competition loop never touch
the clock (the increment is one per accepted step no matter how many draws
were rejected); a batch of `B` drift/immigration steps advances the clock by
exactly `B`. -/
theorem C7_clock_one_per_step (interval : Nat) (st : DriftState) (r : ImmRand)
    (rs : List ImmRand) (stC stC' : DriftState) (rC : CompRand) (f : Forest)
    (rS : SdxRand) (hcomp : replaceTreeComp stC rC = some stC') :
    (replaceTreeImm interval st r).stepCount = st.stepCount + 1
    ∧ (runImm interval st rs).stepCount = st.stepCount + rs.length
    ∧ stC'.stepCount = stC.stepCount + 1
    ∧ (f.replaceTree rS).stepCount = f.stepCount + 1 := by
  refine ⟨rfl, runImm_stepCount interval st rs, ?_, rfl⟩
  obtain ⟨sp, -, rfl⟩ := replaceTreeComp_some stC rC stC' hcomp
  rfl

/-- C7 witness: concrete steps in all three variants, including a competition
step whose rejection loop rejects its first draw (the clock still advances
by exactly one), and a 3-step immigration batch advancing the clock by 3. -/
theorem C7_witness :
    ((replaceTreeComp stW22 compRandW).getD stW22).stepCount = 1
    ∧ (replaceTreeImm 100 stW22 { d := 0, aSpec := 1, aIdx := 1 }).stepCount = 1
    ∧ (runImm 100 stW22
        [{ d := 0, aSpec := 1, aIdx := 1 }, { d := 1, aSpec := 0, aIdx := 2 },
         { d := 2, aSpec := 0, aIdx := 0 }]).stepCount = 3
    ∧ (sdxW3.replaceTree { d := 4, idx := 5 }).stepCount = 1 := by
  have hc0 : stW22.census 0 = 2 := by decide
  have hc1 : stW22.census 1 = 2 := by decide
  have ht : stW22.trees = [0, 1, 1, 0] := by decide
  cases hrun : replaceTreeComp stW22 compRandW with
  | none =>
    have hsome : (replaceTreeComp stW22 compRandW).isSome = true := by
      norm_num [replaceTreeComp, rejectionLoop, poachingCoef, compRandW, hc0, hc1, ht]
    rw [hrun] at hsome
    simp at hsome
  | some stC' =>
    have hmain := C7_clock_one_per_step 100 stW22 { d := 0, aSpec := 1, aIdx := 1 }
      [{ d := 0, aSpec := 1, aIdx := 1 }, { d := 1, aSpec := 0, aIdx := 2 },
       { d := 2, aSpec := 0, aIdx := 0 }]
      stW22 stC' compRandW sdxW3 { d := 4, idx := 5 } hrun
    exact ⟨hmain.2.2.1, hmain.1, hmain.2.1, hmain.2.2.2⟩

/-- C8: grid construction makes exactly `s²` cells, every cell's species is
in the species set, the census maps each species to the number of cells
holding it (in both programs' constructors), the counts total `s²`, and a
fresh neighbor-exclusion grid has no vacant cell. -/
theorem C8_construction (s k : Nat) (choices : List Nat) (hk : 0 < k)
    (hc : ∀ x ∈ choices, x < k) :
    (createForest s k choices).trees.length = s * s
    ∧ (∀ x ∈ (createForest s k choices).trees, x < k)
    ∧ (∀ i, i < k → (createForest s k choices).census i
        = (countSp (createForest s k choices).trees i : Int))
    ∧ speciesTotal k (createForest s k choices).census = ((s * s : Nat) : Int)
    ∧ (Forest.create s k choices).trees.length = s * s
    ∧ (∀ x ∈ (Forest.create s k choices).trees, ∀ j, x = some j → j < k)
    ∧ (∀ i, i < k → (Forest.create s k choices).census (some i)
        = some ((countSp (Forest.create s k choices).trees (some i) : Int)))
    ∧ countSp (Forest.create s k choices).trees none = 0 := by
  obtain ⟨hNs, hlenF, hrangeF, hcensusF⟩ := Forest.create_wf s k choices hk hc
  refine ⟨createForest_length s k choices,
    createForest_species_lt s k choices hk hc,
    ?_, (createForest_wf s k choices hk hc).2.2,
    by simpa [hNs] using hlenF, hrangeF, fun i hi => hcensusF i hi, ?_⟩
  · intro i hi
    exact createForest_census s k choices i
  · show countSp ((speciesDraws s choices).map some) none = 0
    exact countSp_map_some_none _

/-- C8 witness: the 2×2 grid planted as olive, orange, orange, olive. -/
theorem C8_witness :
    0 < 2
    ∧ (∀ x ∈ [0, 1, 1, 0], x < 2)
    ∧ (createForest 2 2 [0, 1, 1, 0]).trees.length = 4
    ∧ (createForest 2 2 [0, 1, 1, 0]).census 0
        = (countSp (createForest 2 2 [0, 1, 1, 0]).trees 0 : Int)
    ∧ speciesTotal 2 (createForest 2 2 [0, 1, 1, 0]).census = 4
    ∧ (Forest.create 2 2 [0, 1, 1, 0]).census (some 1)
        = some ((countSp (Forest.create 2 2 [0, 1, 1, 0]).trees (some 1) : Int))
    ∧ countSp (Forest.create 2 2 [0, 1, 1, 0]).trees none = 0 := by
  have h := C8_construction 2 2 [0, 1, 1, 0] (by decide) (by decide)
  exact ⟨by decide, by decide, h.1, h.2.2.1 0 (by decide), h.2.2.2.1,
    h.2.2.2.2.2.2.1 1 (by decide), h.2.2.2.2.2.2.2⟩

/-- C9: immediately after initialization or reset the clock is 0, so the
very first replacement of the drift-with-immigration variant is an
immigration event (`0 % k = 0` for every configured interval `k > 0`): the
arriving species is the draw from the full species list. -/
theorem C9_first_step_is_immigration (interval : Nat) (choices : List Nat)
    (r : ImmRand) (hint : 0 < interval) (hd : r.d < 625) :
    (doResetImm choices).stepCount = 0
    ∧ (replaceTreeImm interval (doResetImm choices) r).trees.getD r.d 0
        = r.aSpec := by
  have hlen : (doResetImm choices).trees.length = 625 :=
    createForest_length 25 10 choices
  have hd' : r.d < (doResetImm choices).trees.length := by omega
  refine ⟨rfl, ?_⟩
  have hstep : (doResetImm choices).stepCount % interval = 0 := Nat.zero_mod interval
  exact (replaceTreeImm_arrival interval (doResetImm choices) r hd').1 hstep

/-- C9 witness: reset with an all-aspen planting, interval 100; the first
arrival is the drawn species 7. -/
theorem C9_witness :
    0 < 100
    ∧ 3 < 625
    ∧ (doResetImm (List.replicate 625 0)).stepCount = 0
    ∧ (replaceTreeImm 100 (doResetImm (List.replicate 625 0))
        { d := 3, aSpec := 7, aIdx := 5 }).trees.getD 3 0 = 7 := by
  have h := C9_first_step_is_immigration 100 (List.replicate 625 0)
    { d := 3, aSpec := 7, aIdx := 5 } (by decide) (by decide)
  exact ⟨by decide, by decide, h.1, h.2⟩

/-- C1: in every variant, starting from a freshly constructed grid of `s²`
cells, after any number of accepted replacement steps the census counts of
all species plus the number of vacant cells total `s²`.  The first two
variants never create vacancies, so their invariant is the bare census
total; the neighbor-exclusion sum adds the vacancy count. -/
theorem C1_census_total_invariant :
    (∀ (interval s k : Nat) (choices : List Nat) (rs : List ImmRand),
      0 < k → (∀ x ∈ choices, x < k) → (∀ r ∈ rs, ImmValid (s * s) k r) →
      speciesTotal k (runImm interval (createForest s k choices) rs).census
        = ((s * s : Nat) : Int))
    ∧ (∀ (s : Nat) (choices : List Nat) (rs : List CompRand) (st' : DriftState),
      (∀ x ∈ choices, x < 2) →
      (∀ r ∈ rs, r.d < s * s ∧ ∀ n, r.cand n < s * s) →
      runComp (createForest s 2 choices) rs = some st' →
      speciesTotal 2 st'.census = ((s * s : Nat) : Int))
    ∧ (∀ (s k : Nat) (choices : List Nat) (rs : List SdxRand),
      0 < k → (∀ x ∈ choices, x < k) →
      (∀ r ∈ rs, r.d < s * s ∧ r.idx < s * s) →
      (∑ i ∈ Finset.range k,
          ((runSdx (Forest.create s k choices) rs).census (some i)).getD 0)
        + (countSp (runSdx (Forest.create s k choices) rs).trees none : Int)
        = ((s * s : Nat) : Int)) := by
  refine ⟨?_, ?_, ?_⟩
  · intro interval s k choices rs hk hc hrs
    exact (runImm_wf interval (s * s) k (createForest s k choices) rs
      (createForest_wf s k choices hk hc) hrs).2.2
  · intro s choices rs st' hc hrs hrun
    exact (runComp_wf (s * s) (createForest s 2 choices) st' rs
      (createForest_wf s 2 choices (by omega) hc) hrs hrun).2.2
  · intro s k choices rs hk hc hrs
    have hwf := runSdx_wf (Forest.create s k choices) rs hrs
      (Forest.create_wf s k choices hk hc)
    have hfields := runSdx_fields (Forest.create s k choices) rs
    set F := runSdx (Forest.create s k choices) rs with hF
    obtain ⟨hNs, hlen, hrange, hcensus⟩ := hwf
    have hk' : F.numSpecies = k := hfields.2.2
    have hN' : F.N = s * s := hfields.1
    have hrange' : ∀ x ∈ F.trees, ∀ j, x = some j → j < k := by
      intro x hx j hj
      have hjk := hrange x hx j hj
      rw [hk'] at hjk
      exact hjk
    have hsum := sum_countSp_opt k F.trees hrange'
    have hcongr : ∀ i ∈ Finset.range k,
        (F.census (some i)).getD 0 = ((countSp F.trees (some i) : Int)) := by
      intro i hi
      rw [hcensus i (by rw [hk']; exact Finset.mem_range.mp hi)]
      rfl
    rw [Finset.sum_congr rfl hcongr, hsum, hlen, hN']

/-- C1 witness: one accepted step in each variant on concrete grids; the
neighbor-exclusion step vacates its cell yet the sum stays 9. -/
theorem C1_witness :
    speciesTotal 2 (runImm 3 stW22 [{ d := 0, aSpec := 1, aIdx := 3 }]).census = 4
    ∧ speciesTotal 2 ((runComp stW22 [compRandW]).getD stW22).census = 4
    ∧ (∑ i ∈ Finset.range 2,
          ((runSdx sdxW3 [{ d := 4, idx := 5 }]).census (some i)).getD 0)
        + (countSp (runSdx sdxW3 [{ d := 4, idx := 5 }]).trees none : Int) = 9 := by
  have himm : ∀ r ∈ [({ d := 0, aSpec := 1, aIdx := 3 } : ImmRand)],
      ImmValid (2 * 2) 2 r := by
    intro r hr
    rw [List.mem_singleton] at hr
    subst hr
    exact ⟨by decide, by decide, by decide⟩
  have hcomp : ∀ r ∈ [compRandW], r.d < 2 * 2 ∧ ∀ n, r.cand n < 2 * 2 := by
    intro r hr
    rw [List.mem_singleton] at hr
    subst hr
    refine ⟨by decide, fun n => ?_⟩
    have hcand : compRandW.cand n = n % 2 := rfl
    rw [hcand]
    omega
  have hsdx : ∀ r ∈ [({ d := 4, idx := 5 } : SdxRand)],
      r.d < 3 * 3 ∧ r.idx < 3 * 3 := by
    intro r hr
    rw [List.mem_singleton] at hr
    subst hr
    exact ⟨by decide, by decide⟩
  refine ⟨?_, ?_, ?_⟩
  · have h := C1_census_total_invariant.1 3 2 2 [0, 1, 1, 0]
      [{ d := 0, aSpec := 1, aIdx := 3 }] (by decide) (by decide) himm
    simpa [stW22] using h
  · have hc0 : stW22.census 0 = 2 := by decide
    have hc1 : stW22.census 1 = 2 := by decide
    have ht : stW22.trees = [0, 1, 1, 0] := by decide
    cases hrun : runComp stW22 [compRandW] with
    | none =>
      have hsome : (runComp stW22 [compRandW]).isSome = true := by
        norm_num [runComp, replaceTreeComp, rejectionLoop, poachingCoef,
          compRandW, hc0, hc1, ht]
      rw [hrun] at hsome
      simp at hsome
    | some st' =>
      have h := C1_census_total_invariant.2.1 2 [0, 1, 1, 0]
        [compRandW] st' (by decide) hcomp hrun
      simpa using h
  · have h := C1_census_total_invariant.2.2 3 2 [0, 1, 0, 1, 0, 1, 0, 1, 0]
      [{ d := 4, idx := 5 }] (by decide) (by decide) hsdx
    simpa [sdxW3] using h

/-- C2: in the neighbor-exclusion variant, when a replacement is found it is
the species of the first circularly scanned cell (from the random start)
that is non-vacant and not in the departing cell's pre-departure 9-cell
neighbourhood species list; consequently the arriving species differs from
the species of each of the 8 toroidal neighbours of the affected cell at the
moment of replacement. -/
theorem C2_neighbor_exclusion (f : Forest) (r : SdxRand) (a : Nat)
    (hNs : f.N = f.s * f.s) (hs : 2 ≤ f.s) (hlen : f.trees.length = f.N)
    (hd : r.d < f.N) (hidx : r.idx < f.N)
    (harr : (f.replaceTree r).trees.getD r.d none = some a) :
    (∃ t < f.N, f.trees.getD (scanPos r.idx f.N t) none = some a
      ∧ a ∉ listNeighborSpecies f.trees f.s r.d
      ∧ ∀ u < t, ∀ q, f.trees.getD (scanPos r.idx f.N u) none = some q →
          q ∈ listNeighborSpecies f.trees f.s r.d)
    ∧ (∀ j ∈ ringIndices f.s r.d,
        (f.replaceTree r).trees.getD j none ≠ some a) := by
  have hdlen : r.d < f.trees.length := hlen ▸ hd
  cases hscan : scanForReplacement f.trees f.N
      (listNeighborSpecies f.trees f.s r.d) r.idx with
  | none =>
    have hvac : (f.replaceTree r).trees.getD r.d none = none := by
      have htrees : (f.replaceTree r).trees = f.trees.set r.d none := by
        simp only [Forest.replaceTree, hscan]
      rw [htrees]
      exact getD_set_self _ _ _ _ hdlen
    rw [hvac] at harr
    exact absurd harr (by simp)
  | some sp =>
    have htrees : (f.replaceTree r).trees = f.trees.set r.d (some sp) := by
      simp only [Forest.replaceTree, hscan]
    have hsp_a : sp = a := by
      rw [htrees, getD_set_self _ _ _ _ hdlen] at harr
      exact Option.some.inj harr
    subst hsp_a
    obtain ⟨t, ht, hspec, hnotex, hfirst⟩ :=
      scanFrom_some f.trees f.N (listNeighborSpecies f.trees f.s r.d) r.idx f.N 0 sp hscan
    refine ⟨⟨t, ht, by simpa using hspec, hnotex, ?_⟩, ?_⟩
    · intro u hu q hq
      exact hfirst u hu q (by simpa using hq)
    · intro j hj
      have hjd : j ≠ r.d := ringIndices_ne_center f.s r.d hs (hNs ▸ hd) j hj
      rw [htrees, getD_set_ne f.trees r.d j (some sp) none hjd]
      cases hold : f.trees.getD j none with
      | none => simp
      | some q =>
        have hqmem : q ∈ listNeighborSpecies f.trees f.s r.d :=
          mem_listNeighborSpecies f.trees f.s r.d j q
            (ringIndices_subset f.s r.d j hj) hold
        intro hcontra
        obtain rfl : q = sp := Option.some.inj hcontra
        exact hnotex hqmem

/-- C2 witness: on `sdxW4` the replacement of cell 0 is the lone orange at
cell 2 (the first eligible cell of the scan), and it differs from all 8
toroidal neighbours of cell 0. -/
theorem C2_witness :
    (sdxW4.replaceTree { d := 0, idx := 0 }).trees.getD 0 none = some 1
    ∧ ((∃ t < sdxW4.N, sdxW4.trees.getD (scanPos 0 sdxW4.N t) none = some 1
        ∧ 1 ∉ listNeighborSpecies sdxW4.trees sdxW4.s 0
        ∧ ∀ u < t, ∀ q,
            sdxW4.trees.getD (scanPos 0 sdxW4.N u) none = some q →
              q ∈ listNeighborSpecies sdxW4.trees sdxW4.s 0)
      ∧ ∀ j ∈ ringIndices sdxW4.s 0,
          (sdxW4.replaceTree { d := 0, idx := 0 }).trees.getD j none ≠ some 1) := by
  have harr : (sdxW4.replaceTree { d := 0, idx := 0 }).trees.getD 0 none
      = some 1 := by decide
  exact ⟨harr, C2_neighbor_exclusion sdxW4 { d := 0, idx := 0 } 1 rfl
    (by decide) (by decide) (by decide) (by decide) harr⟩

/-- C3: in the neighbor-exclusion variant, when the full circular scan finds
no eligible candidate the step still completes: the departing cell's species
becomes vacant (`null`), the census entry at the departing species key is
decremented, and no census key is incremented (every other key is
unchanged). -/
theorem C3_exhausted_scan_vacates (f : Forest) (r : SdxRand)
    (hlen : f.trees.length = f.N) (hd : r.d < f.N)
    (hscan : scanForReplacement f.trees f.N
        (listNeighborSpecies f.trees f.s r.d) r.idx = none) :
    (f.replaceTree r).trees.getD r.d none = none
    ∧ (f.replaceTree r).census (f.trees.getD r.d none)
        = (f.census (f.trees.getD r.d none)).map (fun v => v - 1)
    ∧ ∀ key, key ≠ f.trees.getD r.d none →
        (f.replaceTree r).census key = f.census key := by
  have hdlen : r.d < f.trees.length := hlen ▸ hd
  have htrees : (f.replaceTree r).trees = f.trees.set r.d none := by
    simp only [Forest.replaceTree, hscan]
  have hcensus : (f.replaceTree r).census
      = objDec f.census (f.trees.getD r.d none) := by
    simp only [Forest.replaceTree, hscan]
  refine ⟨?_, ?_, ?_⟩
  · rw [htrees]
    exact getD_set_self _ _ _ _ hdlen
  · rw [hcensus]
    unfold objDec
    rw [if_pos rfl]
  · intro key hkey
    rw [hcensus]
    unfold objDec
    rw [if_neg hkey]

/-- C3 witness: on the alternating 3×3 two-species grid every cell's
neighbourhood holds both species, so the scan for cell 4 is exhausted; the
cell becomes vacant, aspen's count drops from 5 to 4, and orange's count is
untouched. -/
theorem C3_witness :
    scanForReplacement sdxW3.trees sdxW3.N
        (listNeighborSpecies sdxW3.trees sdxW3.s 4) 5 = none
    ∧ (sdxW3.replaceTree { d := 4, idx := 5 }).trees.getD 4 none = none
    ∧ (sdxW3.replaceTree { d := 4, idx := 5 }).census (sdxW3.trees.getD 4 none)
        = (sdxW3.census (sdxW3.trees.getD 4 none)).map (fun v => v - 1)
    ∧ (sdxW3.replaceTree { d := 4, idx := 5 }).census (some 0) = some 4
    ∧ (sdxW3.replaceTree { d := 4, idx := 5 }).census (some 1) = some 4 := by
  have hscan : scanForReplacement sdxW3.trees sdxW3.N
      (listNeighborSpecies sdxW3.trees sdxW3.s 4) 5 = none := by decide
  have h := C3_exhausted_scan_vacates sdxW3 { d := 4, idx := 5 }
    (by decide) (by decide) hscan
  exact ⟨hscan, h.1, h.2.1, by decide, by decide⟩

/-- C10: in the neighbor-exclusion variant, a step whose departing cell is
already vacant decrements no species key (the JavaScript decrement falls on
the object key `"null"`, embedded as the census key `none`): every species
key is unchanged or incremented.  Moreover the per-species census/count
invariant is preserved by every replacement step, vacant departing cell or
not. -/
theorem C10_vacant_departure_no_decrement (f : Forest) (r : SdxRand)
    (hlen : f.trees.length = f.N) (hd : r.d < f.N) :
    (f.trees.getD r.d none = none →
      ∀ i : Nat, (f.replaceTree r).census (some i) = f.census (some i)
        ∨ (f.replaceTree r).census (some i)
            = (f.census (some i)).map (fun v => v + 1))
    ∧ (∀ i : Nat, f.census (some i) = some ((countSp f.trees (some i) : Int)) →
      (f.replaceTree r).census (some i)
        = some ((countSp (f.replaceTree r).trees (some i) : Int))) := by
  refine ⟨?_, fun i hi => replaceTree_census_pointwise f r i hlen hd hi⟩
  intro hvac i
  cases hscan : scanForReplacement f.trees f.N
      (listNeighborSpecies f.trees f.s r.d) r.idx with
  | none =>
    left
    have hcensus : (f.replaceTree r).census
        = objDec f.census (f.trees.getD r.d none) := by
      simp only [Forest.replaceTree, hscan]
    rw [hcensus, hvac]
    unfold objDec
    rw [if_neg (show ¬ (some i : Option Nat) = none by simp)]
  | some sp =>
    have hcensus : (f.replaceTree r).census
        = objInc (objDec f.census (f.trees.getD r.d none)) (some sp) := by
      simp only [Forest.replaceTree, hscan]
    rw [hcensus, hvac]
    by_cases hisp : (some i : Option Nat) = some sp
    · right
      unfold objInc objDec
      rw [if_pos hisp, if_neg (show ¬ (some sp : Option Nat) = none by simp), hisp]
    · left
      unfold objInc objDec
      rw [if_neg hisp, if_neg (show ¬ (some i : Option Nat) = none by simp)]

/-- C10 witness: stepping `sdxVacW` at its vacant cell 4 leaves both species
keys of the census unchanged or incremented, and the census/count invariant
holds before and after. -/
theorem C10_witness :
    sdxVacW.trees.getD 4 none = none
    ∧ ((sdxVacW.replaceTree { d := 4, idx := 2 }).census (some 0)
          = sdxVacW.census (some 0)
        ∨ (sdxVacW.replaceTree { d := 4, idx := 2 }).census (some 0)
          = (sdxVacW.census (some 0)).map (fun v => v + 1))
    ∧ (sdxVacW.replaceTree { d := 4, idx := 2 }).census (some 0)
        = some ((countSp (sdxVacW.replaceTree { d := 4, idx := 2 }).trees
            (some 0) : Int)) := by
  have h := C10_vacant_departure_no_decrement sdxVacW { d := 4, idx := 2 }
    (by decide) (by decide)
  exact ⟨by decide, h.1 (by decide) 0, h.2 0 (by decide)⟩

/-- C6: each competition replacement step's rejection loop accepts the first
candidate whose fresh uniform draw falls below the pressure factor of that
candidate's species — capacity divided by (own live count + poaching
coefficient × the other species' live count), computed from the census as it
stood before the step — rejecting every earlier draw by the same test; the
accepted candidate's species becomes the arrival. -/
theorem C6_pressure_rejection_sampling (st : DriftState) (r : CompRand)
    (st' : DriftState) (h : replaceTreeComp st r = some st') :
    ∃ n < r.fuel,
      st'.trees = st.trees.set r.d (st.trees.getD (r.cand n) 0)
      ∧ st'.census = censusInc (censusDec st.census (st.trees.getD r.d 0))
          (st.trees.getD (r.cand n) 0)
      ∧ r.coins n < (if st.trees.getD (r.cand n) 0 = 0 then
            pressureFactor r.iron (st.census 0) (st.census 1) poachingCoef
          else pressureFactor r.calcium (st.census 1) (st.census 0) poachingCoef)
      ∧ ∀ m < n, ¬ r.coins m < (if st.trees.getD (r.cand m) 0 = 0 then
            pressureFactor r.iron (st.census 0) (st.census 1) poachingCoef
          else pressureFactor r.calcium (st.census 1) (st.census 0) poachingCoef) := by
  obtain ⟨sp, hloop, rfl⟩ := replaceTreeComp_some st r st' h
  obtain ⟨t, ht, hspt, hacc, hrej⟩ :=
    rejectionLoop_spec st.trees _ _ r.cand r.coins r.fuel 0 sp hloop
  rw [Nat.zero_add] at hspt
  subst hspt
  simp only [Nat.zero_add] at hacc hrej
  exact ⟨t, ht, rfl, rfl, hacc, fun m hm => hrej m hm⟩

/-- C6 witness: on `stW22` with capacities 1:1 both factors are 2/5; draw 0
(coin 9/10, candidate olive) is rejected, draw 1 (coin 1/10, candidate
orange) is accepted and orange arrives. -/
theorem C6_witness :
    ∃ n < compRandW.fuel,
      ((replaceTreeComp stW22 compRandW).getD stW22).trees
          = stW22.trees.set compRandW.d (stW22.trees.getD (compRandW.cand n) 0)
      ∧ ((replaceTreeComp stW22 compRandW).getD stW22).census
          = censusInc (censusDec stW22.census (stW22.trees.getD compRandW.d 0))
              (stW22.trees.getD (compRandW.cand n) 0)
      ∧ compRandW.coins n < (if stW22.trees.getD (compRandW.cand n) 0 = 0 then
            pressureFactor compRandW.iron (stW22.census 0) (stW22.census 1) poachingCoef
          else pressureFactor compRandW.calcium (stW22.census 1) (stW22.census 0)
            poachingCoef)
      ∧ ∀ m < n, ¬ compRandW.coins m
          < (if stW22.trees.getD (compRandW.cand m) 0 = 0 then
              pressureFactor compRandW.iron (stW22.census 0) (stW22.census 1)
                poachingCoef
            else pressureFactor compRandW.calcium (stW22.census 1) (stW22.census 0)
              poachingCoef) := by
  have hc0 : stW22.census 0 = 2 := by decide
  have hc1 : stW22.census 1 = 2 := by decide
  have ht : stW22.trees = [0, 1, 1, 0] := by decide
  cases hrun : replaceTreeComp stW22 compRandW with
  | none =>
    have hsome : (replaceTreeComp stW22 compRandW).isSome = true := by
      norm_num [replaceTreeComp, rejectionLoop, poachingCoef, compRandW, hc0, hc1, ht]
    rw [hrun] at hsome
    simp at hsome
  | some st' =>
    exact C6_pressure_rejection_sampling stW22 compRandW st' hrun

/-- C4 counterexample: at a batch end where a species is extinct but the
step ceiling is reached simultaneously (`stepCount = 500000`), `runBatch`
overwrites the state with `'running'` (the ceiling test wins the ternary)
and the subsequent `doStartStop()` lands in `'paused'` — not in the terminal
`'done'` state the claim requires. -/
theorem C4_counterexample :
    finishedComp c4State = true
    ∧ c4State.census 0 = 0
    ∧ runBatchControl c4State = RunState.paused
    ∧ ¬ runBatchControl c4State = RunState.done := by
  exact ⟨by decide, by decide, by decide, by decide⟩

/-- C4 amended: extinction detected at a batch end (entered running)
transitions the machine to the terminal `done` state — except when the step
ceiling is reached simultaneously (`stepCount` divisible by 500000), in
which case the ceiling takes precedence and the machine lands in the
resumable `paused` state. -/
theorem C4_extinction_transition (st : DriftState)
    (hext : st.census 0 = 0 ∨ st.census 1 = 0) :
    runBatchControl st
      = if st.stepCount % 500000 = 0 then RunState.paused else RunState.done := by
  have hfin : finishedComp st = true := by
    unfold finishedComp
    rcases hext with h | h <;> simp [h]
  unfold runBatchControl
  rw [if_pos hfin]
  by_cases hceil : st.stepCount % 500000 = 0
  · rw [if_pos hceil, if_pos hceil]
    rfl
  · rw [if_neg hceil, if_neg hceil]
    rfl

/-- C4 witness for the amended claim: extinction at clock 40 lands in
`done`; the counterexample state (extinction at the ceiling) lands in
`paused`. -/
theorem C4_witness :
    (c4DoneState.census 1 = 0 ∧ runBatchControl c4DoneState = RunState.done)
    ∧ runBatchControl c4State = RunState.paused := by
  refine ⟨⟨by decide, ?_⟩, ?_⟩
  · have h := C4_extinction_transition c4DoneState (Or.inr (by decide))
    rw [h]
    decide
  · have h := C4_extinction_transition c4State (Or.inl (by decide))
    rw [h]
    decide

end Trees

